import Mathlib

/-!
Shallow embedding of the `measure` in-process performance-measurement library
(headers under `measure_lib/include/measure/`), in its default configuration
`MEASURE_IS_ON = 1`.

Modelling conventions:
* The clock backend's `GetTick()` is modelled by an arbitrary tick stream
  `clock : Nat → Int`: the k-th call of `GetTick` (counting from 0) returns
  `clock k`.  A state component `ticks` counts how many `GetTick` calls have
  happened so far.
* `totalTime` is `int64_t` / `std::chrono::nanoseconds` in the source; signed
  overflow is undefined behaviour in C++, so it is idealised as `Int`.
* `numCall` is `uint64_t`, whose increment wraps; it is modelled as `Nat`
  with an explicit `% 2 ^ 64`.
* `depth` (recursion-safety counter) is `int32_t`; again signed overflow is
  undefined behaviour, so it is idealised as `Int`.
* Record identity (C++ pointers) is modelled positionally: by the index in
  the registration list, or by an allocation counter for dynamic records.
-/

namespace MeasureLib

/-- modulus of `uint64_t` arithmetic. -/
def U64 : Nat := 2 ^ 64

/-- embedding of `TMeasureRecord` (measure_base.h:60-96): the accumulator
fields of one named timer. -/
structure TMeasureRecord where
  name : String
  totalTime : Int
  numCall : Nat
  deriving Repr, DecidableEq

/-- a record together with the number of `GetTick` calls made so far, so that
the tick stream can be consumed sequentially. -/
structure RecState where
  record : TMeasureRecord
  ticks : Nat
  deriving Repr, DecidableEq

/-- embedding of `TMeasureRecord::StopMeasure` (measure_base.h:82-86):
`totalTime += GetTick() - start; numCall++;` (the `uint64_t` increment wraps
mod `2^64`). -/
def stopMeasure (clock : Nat → Int) (s : RecState) (start : Int) : RecState :=
  { record := { s.record with
      totalTime := s.record.totalTime + (clock s.ticks - start)
      numCall := (s.record.numCall + 1) % U64 }
    ticks := s.ticks + 1 }

/-- embedding of `TMeasureRecord::Now` (measure_base.h:77-80): returns
`GetTick()`, consuming one tick of the stream. -/
def recNow (clock : Nat → Int) (s : RecState) : Int × RecState :=
  (clock s.ticks, { s with ticks := s.ticks + 1 })

/-- one full `TMeasureScope` lifetime (measure_base.h:251-271): the
constructor captures `start = record->Now()` and the destructor calls
`record->StopMeasure(start)`. -/
def runScope (clock : Nat → Int) (s : RecState) : RecState :=
  let p := recNow clock s
  stopMeasure clock p.2 p.1

/-- `N` successive `TMeasureScope` start/stop pairs on the same record. -/
def runScopes (clock : Nat → Int) (s : RecState) : Nat → RecState
  | 0 => s
  | n + 1 => runScope clock (runScopes clock s n)

lemma runScopes_closed (clock : Nat → Int) (nm : String) (t : Int) (k0 : Nat) :
    ∀ N : Nat, runScopes clock ⟨⟨nm, t, 0⟩, k0⟩ N =
      ⟨⟨nm, t + ∑ j in Finset.range N, (clock (k0 + 2 * j + 1) - clock (k0 + 2 * j)),
        N % U64⟩, k0 + 2 * N⟩ := by
  intro N
  induction N with
  | zero => simp [runScopes]
  | succ n ih =>
    rw [runScopes, ih]
    simp only [runScope, recNow, stopMeasure, RecState.mk.injEq, TMeasureRecord.mk.injEq,
      Finset.sum_range_succ]
    exact ⟨⟨trivial, add_assoc _ _ _, Nat.mod_add_mod n U64 1⟩, by omega⟩

/-- C1: for every record and every `N < 2^64`, performing `N` successive
start/stop pairs on the same fresh record sequentially yields
`numCall = N`, `totalTime` equal to the sum of the `N` individual elapsed
tick deltas (each delta being the stop tick minus the captured start tick),
and exactly `2 * N` tick reads. -/
theorem scopes_accumulate_pairs (clock : Nat → Int) (nm : String) (k0 N : Nat)
    (hN : N < U64) :
    (runScopes clock ⟨⟨nm, 0, 0⟩, k0⟩ N).record.numCall = N ∧
    (runScopes clock ⟨⟨nm, 0, 0⟩, k0⟩ N).record.totalTime =
      ∑ j in Finset.range N, (clock (k0 + 2 * j + 1) - clock (k0 + 2 * j)) ∧
    (runScopes clock ⟨⟨nm, 0, 0⟩, k0⟩ N).ticks = k0 + 2 * N := by
  rw [runScopes_closed clock nm 0 k0 N]
  exact ⟨Nat.mod_eq_of_lt hN, by simp, rfl⟩

/-- witness for C1 at `clock k = k`, `N = 2`: two pairs give two calls and
total `(1 - 0) + (3 - 2) = 2`. -/
theorem scopes_accumulate_pairs_witness :
    2 < U64 ∧
    (runScopes (fun k => (k : Int)) ⟨⟨"r", 0, 0⟩, 0⟩ 2).record.numCall = 2 ∧
    (runScopes (fun k => (k : Int)) ⟨⟨"r", 0, 0⟩, 0⟩ 2).record.totalTime =
      ∑ j in Finset.range 2, (((0 + 2 * j + 1 : Nat) : Int) - ((0 + 2 * j : Nat) : Int)) := by
  refine ⟨by decide, ?_, ?_⟩
  · exact (scopes_accumulate_pairs (fun k => (k : Int)) "r" 0 2 (by decide)).1
  · exact (scopes_accumulate_pairs (fun k => (k : Int)) "r" 0 2 (by decide)).2.1

/-- embedding of `MeasureRecordRSafe::IncrementDepth` (measure_base.h:196-199):
`return ++depth == 1;` — the new depth paired with the returned Boolean. -/
def incrementDepth (d : Int) : Int × Bool := (d + 1, d + 1 == 1)

/-- embedding of `MeasureRecordRSafe::DecrementDepth` (measure_base.h:201-204):
`return --depth == 0;` — the new depth paired with the returned Boolean. -/
def decrementDepth (d : Int) : Int × Bool := (d - 1, d - 1 == 0)

/-- a scope event: `enter` is the construction of a `MeasureScopeRSafe`,
`leave` its destruction. -/
inductive SOp where
  | enter : SOp
  | leave : SOp
  deriving Repr, DecidableEq

/-- state of one `MeasureRecordRSafe` record under `MeasureScopeRSafe`
activity.  `stack` holds the `start` members of the live scope objects
(innermost first); `stops` counts how many times `StopMeasure` has run. -/
structure RSState where
  depth : Int
  totalTime : Int
  numCall : Nat
  stops : Nat
  ticks : Nat
  stack : List Int
  deriving Repr, DecidableEq

/-- one step of `MeasureScopeRSafe` (measure_base.h:276-298): the constructor
calls `IncrementDepth` and captures `start = record->Now()` only when it
returns true (otherwise `start` stays uninitialised, modelled by the
arbitrary garbage value `g`); the destructor calls `DecrementDepth` and calls
`StopMeasure(start)` only when it returns true. -/
def rsStep (clock : Nat → Int) (g : Int) (s : RSState) : SOp → RSState
  | SOp.enter =>
    if (incrementDepth s.depth).2 then
      { s with
          depth := (incrementDepth s.depth).1,
          ticks := s.ticks + 1,
          stack := clock s.ticks :: s.stack }
    else
      { s with depth := (incrementDepth s.depth).1, stack := g :: s.stack }
  | SOp.leave =>
    if (decrementDepth s.depth).2 then
      { s with
          depth := (decrementDepth s.depth).1,
          stack := s.stack.tail,
          totalTime := s.totalTime + (clock s.ticks - s.stack.headD g),
          numCall := (s.numCall + 1) % U64,
          stops := s.stops + 1,
          ticks := s.ticks + 1 }
    else
      { s with depth := (decrementDepth s.depth).1, stack := s.stack.tail }

/-- run a sequence of scope constructions/destructions on one record. -/
def rsRun (clock : Nat → Int) (g : Int) (s : RSState) (ops : List SOp) : RSState :=
  ops.foldl (rsStep clock g) s

/-- properly nested (balanced) scope activity: scope objects are destroyed in
reverse order of construction, as C++ block structure guarantees. -/
inductive Balanced : List SOp → Prop
  | nil : Balanced []
  | wrap {w : List SOp} : Balanced w → Balanced (SOp.enter :: w ++ [SOp.leave])
  | app {w₁ w₂ : List SOp} : Balanced w₁ → Balanced w₂ → Balanced (w₁ ++ w₂)

lemma rsRun_cons (clock : Nat → Int) (g : Int) (s : RSState) (op : SOp) (ops : List SOp) :
    rsRun clock g s (op :: ops) = rsRun clock g (rsStep clock g s op) ops := rfl

lemma rsRun_append (clock : Nat → Int) (g : Int) (s : RSState) (w₁ w₂ : List SOp) :
    rsRun clock g s (w₁ ++ w₂) = rsRun clock g (rsRun clock g s w₁) w₂ := by
  simp [rsRun, List.foldl_append]

lemma rsStep_enter_deep (clock : Nat → Int) (g : Int) (s : RSState) (hs : 1 ≤ s.depth) :
    rsStep clock g s SOp.enter = { s with depth := s.depth + 1, stack := g :: s.stack } := by
  have h : (s.depth + 1 == 1) = false := by rw [beq_eq_false_iff_ne]; omega
  simp [rsStep, incrementDepth, h]

lemma rsStep_leave_deep (clock : Nat → Int) (g : Int) (s : RSState) (hs : 2 ≤ s.depth) :
    rsStep clock g s SOp.leave = { s with depth := s.depth - 1, stack := s.stack.tail } := by
  have h : (s.depth - 1 == 0) = false := by rw [beq_eq_false_iff_ne]; omega
  simp [rsStep, decrementDepth, h]

lemma rsRun_inner (clock : Nat → Int) (g : Int) {w : List SOp} (hw : Balanced w) :
    ∀ s : RSState, 1 ≤ s.depth → rsRun clock g s w = s := by
  induction hw with
  | nil => intro s _; rfl
  | @wrap w hw ih =>
    intro s hs
    have e1 : rsStep clock g s SOp.enter = { s with depth := s.depth + 1, stack := g :: s.stack } :=
      rsStep_enter_deep clock g s hs
    have step : rsRun clock g s (SOp.enter :: w ++ [SOp.leave]) =
        rsRun clock g (rsRun clock g (rsStep clock g s SOp.enter) w) [SOp.leave] := by
      simp only [rsRun_append, rsRun_cons]
    rw [step, e1, ih _ (by simp; omega)]
    have e2 : rsStep clock g { s with depth := s.depth + 1, stack := g :: s.stack } SOp.leave =
        { s with depth := s.depth + 1 - 1, stack := s.stack } :=
      rsStep_leave_deep clock g _ (by simp; omega)
    show rsStep clock g _ SOp.leave = s
    rw [e2]
    have : s.depth + 1 - 1 = s.depth := by omega
    rw [this]
  | @app w₁ w₂ h₁ h₂ ih₁ ih₂ =>
    intro s hs
    rw [rsRun_append, ih₁ s hs, ih₂ s hs]

/-- C2: for every recursion-safe record at depth 0, one recursion-aware scope
(`MeasureScopeRSafe`) wrapped around arbitrarily deep properly nested inner
scope activity on the same record commits elapsed time exactly once —
using the start tick captured at the outermost (0 to 1) entry and the stop
tick read at the outermost (1 to 0) exit — increments `numCall` by exactly
one (independent of the nesting depth), and runs `StopMeasure` exactly once
(inner nested scopes never call it); the result does not depend on the
uninitialised `start` garbage value `g`. -/
theorem rsafe_scope_commits_once (clock : Nat → Int) (g : Int) (s : RSState)
    (w : List SOp) (hw : Balanced w) (hd : s.depth = 0) :
    rsRun clock g s (SOp.enter :: w ++ [SOp.leave]) =
      { s with
        totalTime := s.totalTime + (clock (s.ticks + 1) - clock s.ticks),
        numCall := (s.numCall + 1) % U64,
        stops := s.stops + 1,
        ticks := s.ticks + 2 } := by
  have e1 : rsStep clock g s SOp.enter =
      { s with depth := 1, ticks := s.ticks + 1, stack := clock s.ticks :: s.stack } := by
    have h : (s.depth + 1 == 1) = true := by rw [beq_iff_eq]; omega
    simp [rsStep, incrementDepth, h, hd]
  have step : rsRun clock g s (SOp.enter :: w ++ [SOp.leave]) =
      rsRun clock g (rsRun clock g (rsStep clock g s SOp.enter) w) [SOp.leave] := by
    simp only [rsRun_append, rsRun_cons]
  rw [step, e1, rsRun_inner clock g hw _ (by simp)]
  have h0 : ((1 : Int) - 1 == 0) = true := by rw [beq_iff_eq]; omega
  simp [rsRun, rsStep, decrementDepth, h0, hd]

/-- witness for C2: one scope wrapping one nested inner scope (nesting depth
2) on a fresh record commits once: `numCall = 1`, `stops = 1`, and the total
is the outer delta `clock 1 - clock 0 = 1`. -/
theorem rsafe_scope_commits_once_witness :
    Balanced [SOp.enter, SOp.leave] ∧
    (rsRun (fun k => (k : Int)) 7 ⟨0, 0, 0, 0, 0, []⟩
        (SOp.enter :: [SOp.enter, SOp.leave] ++ [SOp.leave])).numCall = 1 ∧
    (rsRun (fun k => (k : Int)) 7 ⟨0, 0, 0, 0, 0, []⟩
        (SOp.enter :: [SOp.enter, SOp.leave] ++ [SOp.leave])).stops = 1 ∧
    (rsRun (fun k => (k : Int)) 7 ⟨0, 0, 0, 0, 0, []⟩
        (SOp.enter :: [SOp.enter, SOp.leave] ++ [SOp.leave])).totalTime = 1 := by
  have hb : Balanced [SOp.enter, SOp.leave] := Balanced.wrap Balanced.nil
  have h := rsafe_scope_commits_once (fun k => (k : Int)) 7 ⟨0, 0, 0, 0, 0, []⟩
    [SOp.enter, SOp.leave] hb rfl
  rw [h]
  exact ⟨hb, by decide, by decide, by decide⟩

/-- depth evolution of a raw `IncrementDepth`/`DecrementDepth` call sequence
on a `MeasureRecordRSafe` (ignoring the timer side). -/
def runDepth (d : Int) : List SOp → Int
  | [] => d
  | SOp.enter :: ops => runDepth (incrementDepth d).1 ops
  | SOp.leave :: ops => runDepth (decrementDepth d).1 ops

/-- number of `IncrementDepth` calls in a sequence. -/
def enters : List SOp → Nat
  | [] => 0
  | SOp.enter :: ops => enters ops + 1
  | SOp.leave :: ops => enters ops

/-- number of `DecrementDepth` calls in a sequence. -/
def leaves : List SOp → Nat
  | [] => 0
  | SOp.enter :: ops => leaves ops
  | SOp.leave :: ops => leaves ops + 1

/-- properly nested discipline: in every initial segment, each
`DecrementDepth` matches a prior unmatched `IncrementDepth`. -/
def NestOk (ops : List SOp) : Prop :=
  ∀ n ≤ ops.length, leaves (ops.take n) ≤ enters (ops.take n)

lemma runDepth_count (ops : List SOp) :
    ∀ d : Int, runDepth d ops = d + enters ops - leaves ops := by
  induction ops with
  | nil => intro d; simp [runDepth, enters, leaves]
  | cons op ops ih =>
    intro d
    cases op with
    | enter =>
      rw [runDepth, ih]
      simp only [incrementDepth, enters, leaves]
      push_cast
      ring
    | leave =>
      rw [runDepth, ih]
      simp only [decrementDepth, enters, leaves]
      push_cast
      ring

/-- C8: under the properly nested discipline, the `depth` counter of a
recursion-safe record starting at 0 stays non-negative after every initial
segment of the call sequence; moreover `IncrementDepth` returns true exactly
when the new depth is 1 and `DecrementDepth` returns true exactly when the
new depth is 0, so the stop is effective only when depth returns to 0. -/
theorem rsafe_depth_nonneg (ops : List SOp) (hok : NestOk ops) :
    (∀ n ≤ ops.length, 0 ≤ runDepth 0 (ops.take n)) ∧
    (∀ d : Int, ((incrementDepth d).2 = true ↔ (incrementDepth d).1 = 1) ∧
      ((decrementDepth d).2 = true ↔ (decrementDepth d).1 = 0)) := by
  constructor
  · intro n hn
    have h := hok n hn
    rw [runDepth_count]
    omega
  · intro d
    constructor
    · simp [incrementDepth]
    · simp [decrementDepth]

/-- witness for C8 at the sequence enter, enter, leave, leave: all prefix
depths are non-negative, and the first decrement (new depth 1) returns
false while the second (new depth 0) returns true. -/
theorem rsafe_depth_nonneg_witness :
    NestOk [SOp.enter, SOp.enter, SOp.leave, SOp.leave] ∧
    0 ≤ runDepth 0 ([SOp.enter, SOp.enter, SOp.leave, SOp.leave].take 3) ∧
    ((incrementDepth 0).2 = true ↔ (incrementDepth 0).1 = 1) ∧
    ((decrementDepth 2).2 = true ↔ (decrementDepth 2).1 = 0) := by
  have hok : NestOk [SOp.enter, SOp.enter, SOp.leave, SOp.leave] := by
    unfold NestOk
    decide
  refine ⟨hok, ?_, ?_, ?_⟩
  · exact (rsafe_depth_nonneg _ hok).1 3 (by decide)
  · exact ((rsafe_depth_nonneg _ hok).2 0).1
  · exact ((rsafe_depth_nonneg _ hok).2 2).2

/-- embedding of `MeasureDatabase::ResetAll` (measure_base.h:415-425) applied
to one record: `mr->numCall = 0; mr->totalTime = {};`. -/
def resetRecord (r : TMeasureRecord) : TMeasureRecord :=
  { r with numCall := 0, totalTime := 0 }

/-- embedding of `MeasureDatabase::ResetAll` (measure_base.h:415-425): every
registered record is zeroed in place; the record list itself is untouched. -/
def resetAll (records : List TMeasureRecord) : List TMeasureRecord :=
  records.map resetRecord

/-- embedding of `MeasureDatabase::FindMeasureRecord` (measure_base.h:362-371):
scan the registered records in order, return the first whose `name` equals
the argument, or a null result (`none`) when there is none. -/
def findMeasureRecord (name : String) : List TMeasureRecord → Option TMeasureRecord
  | [] => none
  | r :: rs => if r.name = name then some r else findMeasureRecord name rs

/-- index of the first record with the given name; models the identity of
the pointer `FindMeasureRecord` returns (records are positional). -/
def findRecordIdx (name : String) : List TMeasureRecord → Option Nat
  | [] => none
  | r :: rs =>
    if r.name = name then some 0
    else (findRecordIdx name rs).map (· + 1)

lemma findMeasureRecord_name (name : String) :
    ∀ records r, findMeasureRecord name records = some r → r.name = name := by
  intro records
  induction records with
  | nil => intro r h; simp [findMeasureRecord] at h
  | cons x xs ih =>
    intro r h
    rw [findMeasureRecord] at h
    by_cases hx : x.name = name
    · rw [if_pos hx] at h
      cases h
      exact hx
    · rw [if_neg hx] at h
      exact ih r h

/-- C7: `FindMeasureRecord` returns `none` (a null pointer) exactly when no
registered record carries the name, and otherwise returns the first record
in registration order whose name matches: there is an index `i` holding the
returned record such that every earlier index holds a record with a
different name. -/
theorem findMeasureRecord_first_match (name : String) (records : List TMeasureRecord) :
    (findMeasureRecord name records = none ↔ ∀ r ∈ records, r.name ≠ name) ∧
    (∀ r, findMeasureRecord name records = some r →
      ∃ i, records.get? i = some r ∧ r.name = name ∧
        ∀ j r₂, j < i → records.get? j = some r₂ → r₂.name ≠ name) := by
  induction records with
  | nil =>
    refine ⟨by simp [findMeasureRecord], ?_⟩
    intro r h
    simp [findMeasureRecord] at h
  | cons x xs ih =>
    constructor
    · rw [findMeasureRecord]
      by_cases hx : x.name = name
      · rw [if_pos hx]
        simp [hx]
      · rw [if_neg hx]
        rw [ih.1]
        constructor
        · intro h r hr
          rcases List.mem_cons.mp hr with h1 | h2
          · rw [h1]; exact hx
          · exact h r h2
        · intro h r hr
          exact h r (List.mem_cons_of_mem x hr)
    · intro r h
      rw [findMeasureRecord] at h
      by_cases hx : x.name = name
      · rw [if_pos hx] at h
        cases h
        exact ⟨0, rfl, hx, by omega⟩
      · rw [if_neg hx] at h
        obtain ⟨i, hi, hn, hfirst⟩ := ih.2 r h
        refine ⟨i + 1, by simpa using hi, hn, ?_⟩
        intro j r₂ hj hr₂
        cases j with
        | zero =>
          simp at hr₂
          rw [← hr₂]
          exact hx
        | succ j =>
          exact hfirst j r₂ (by omega) (by simpa using hr₂)

/-- witness for C7 on a two-record database: lookup of the second name finds
it at index 1 with the first index excluded, and lookup of an absent name
returns `none`. -/
theorem findMeasureRecord_first_match_witness :
    findMeasureRecord "b" [⟨"a", 3, 1⟩, ⟨"b", 4, 2⟩] = some ⟨"b", 4, 2⟩ ∧
    findMeasureRecord "zz" [⟨"a", 3, 1⟩, ⟨"b", 4, 2⟩] = none := by
  constructor
  · decide
  · exact (findMeasureRecord_first_match "zz" [⟨"a", 3, 1⟩, ⟨"b", 4, 2⟩]).1.mpr (by decide)

lemma resetRecord_name (r : TMeasureRecord) : (resetRecord r).name = r.name := rfl

lemma findRecordIdx_resetAll (name : String) :
    ∀ records, findRecordIdx name (resetAll records) = findRecordIdx name records := by
  intro records
  induction records with
  | nil => rfl
  | cons x xs ih =>
    show findRecordIdx name (resetRecord x :: resetAll xs) = _
    rw [findRecordIdx, findRecordIdx, resetRecord_name, ih]

lemma findMeasureRecord_resetAll (name : String) :
    ∀ records, findMeasureRecord name (resetAll records) =
      (findMeasureRecord name records).map resetRecord := by
  intro records
  induction records with
  | nil => rfl
  | cons x xs ih =>
    show findMeasureRecord name (resetRecord x :: resetAll xs) = _
    rw [findMeasureRecord, findMeasureRecord, resetRecord_name, ih]
    by_cases hx : x.name = name
    · rw [if_pos hx, if_pos hx]
      rfl
    · rw [if_neg hx, if_neg hx]

/-- C6: `ResetAll` zeroes `numCall` and `totalTime` of every registered
record in place and changes nothing else: the list keeps its length and
order, each position keeps its record's name, and a subsequent
`FindMeasureRecord` with a previously registered name still returns that
record (same position, same name, counters zeroed). -/
theorem resetAll_zeroes_in_place (records : List TMeasureRecord) :
    (resetAll records).length = records.length ∧
    (∀ i r, records.get? i = some r →
      (resetAll records).get? i = some ⟨r.name, 0, 0⟩) ∧
    (∀ name, findRecordIdx name (resetAll records) = findRecordIdx name records) ∧
    (∀ name, findMeasureRecord name (resetAll records) =
      (findMeasureRecord name records).map resetRecord) := by
  refine ⟨List.length_map records resetRecord, ?_, fun name => findRecordIdx_resetAll name records, ?_⟩
  · intro i r hir
    rw [resetAll, List.get?_map, hir]
    rfl
  · intro name
    exact findMeasureRecord_resetAll name records

/-- witness for C6 on a two-record database: resetting keeps both names in
place with zeroed counters, and the second name is still found (same index,
zeroed counters). -/
theorem resetAll_zeroes_in_place_witness :
    (resetAll [⟨"a", 5, 2⟩, ⟨"b", 7, 3⟩]).get? 1 = some ⟨"b", 0, 0⟩ ∧
    findRecordIdx "b" (resetAll [⟨"a", 5, 2⟩, ⟨"b", 7, 3⟩]) = some 1 ∧
    findMeasureRecord "b" (resetAll [⟨"a", 5, 2⟩, ⟨"b", 7, 3⟩]) = some ⟨"b", 0, 0⟩ := by
  have h := resetAll_zeroes_in_place [⟨"a", 5, 2⟩, ⟨"b", 7, 3⟩]
  refine ⟨h.2.1 1 ⟨"b", 7, 3⟩ rfl, ?_, ?_⟩
  · rw [h.2.2.1 "b"]
    decide
  · rw [h.2.2.2 "b"]
    decide

/-- state of one `DynamicMeasureDatabase` instance together with its plain
`MeasureDatabase`.  Records are identified by allocation ids (modelling C++
heap pointers): `fresh` is the next unused id, `db` is the plain Database's
registration sequence, `dynMap` the owned name-to-record mapping. -/
structure DynState where
  fresh : Nat
  db : List Nat
  dynMap : List (String × Nat)
  deriving Repr, DecidableEq

/-- lookup in the owned mapping (`dynamicRecords.find(name)` on the
`std::map`, whose keys are unique). -/
def lookupName (name : String) : List (String × Nat) → Option Nat
  | [] => none
  | p :: ps => if p.1 = name then some p.2 else lookupName name ps

/-- identity-level embedding of the `TMeasureRecord` constructor
(measure_base.h:68-75): allocate a fresh record; when `autoRegister` is true
(the default) the record appends itself to the plain Database via
`Database::AddRecord(this)`. -/
def mkRecord (autoRegister : Bool) (st : DynState) : Nat × DynState :=
  (st.fresh,
    { st with
      fresh := st.fresh + 1,
      db := if autoRegister then st.db ++ [st.fresh] else st.db })

/-- embedding of `DynamicMeasureDatabase::GetOrAddDynamicRecord`
(measure_base.h:428-446): look the name up in the owned mapping; if present
return the stored record, else construct a new record with
`autoRegister = true`, store it under the name, and return it. -/
def getOrAddDynamicRecord (name : String) (st : DynState) : Nat × DynState :=
  match lookupName name st.dynMap with
  | some id => (id, st)
  | none =>
    let p := mkRecord true st
    (p.1, { p.2 with dynMap := p.2.dynMap ++ [(name, p.1)] })

/-- well-formedness of a dynamic-database state: every stored id was
allocated (is below `fresh`), and distinct mapping entries hold distinct
records (C++ guarantees this because each entry owns a separate heap
allocation). -/
def DynWF (st : DynState) : Prop :=
  (∀ p ∈ st.dynMap, p.2 < st.fresh) ∧
  (∀ id ∈ st.db, id < st.fresh) ∧
  (st.dynMap.map Prod.snd).Nodup

lemma lookupName_mem (name : String) :
    ∀ m id, lookupName name m = some id → (name, id) ∈ m := by
  intro m
  induction m with
  | nil => intro id h; simp [lookupName] at h
  | cons p ps ih =>
    intro id h
    rw [lookupName] at h
    by_cases hp : p.1 = name
    · rw [if_pos hp] at h
      cases h
      have hpp : (name, p.2) = p := by rw [← hp]
      rw [hpp]
      exact List.mem_cons_self p ps
    · rw [if_neg hp] at h
      exact List.mem_cons_of_mem p (ih id h)

lemma lookupName_append_self (name : String) (id : Nat) :
    ∀ m, lookupName name m = none → lookupName name (m ++ [(name, id)]) = some id := by
  intro m
  induction m with
  | nil => intro _; simp [lookupName]
  | cons p ps ih =>
    intro h
    rw [lookupName] at h
    by_cases hp : p.1 = name
    · rw [if_pos hp] at h
      cases h
    · rw [if_neg hp] at h
      show lookupName name (p :: (ps ++ [(name, id)])) = some id
      rw [lookupName, if_neg hp]
      exact ih h

lemma lookupName_distinct (n₁ n₂ : String) (hne : n₁ ≠ n₂) :
    ∀ m i₁ i₂, (m.map Prod.snd).Nodup →
      lookupName n₁ m = some i₁ → lookupName n₂ m = some i₂ → i₁ ≠ i₂ := by
  intro m
  induction m with
  | nil => intro i₁ i₂ _ h; simp [lookupName] at h
  | cons p ps ih =>
    intro i₁ i₂ hnd h₁ h₂
    rw [List.map_cons, List.nodup_cons] at hnd
    rw [lookupName] at h₁ h₂
    by_cases hp₁ : p.1 = n₁
    · rw [if_pos hp₁] at h₁
      cases h₁
      rw [if_neg (by rw [hp₁]; exact hne)] at h₂
      intro he
      exact hnd.1 (he ▸ List.mem_map_of_mem Prod.snd (lookupName_mem n₂ ps i₂ h₂))
    · rw [if_neg hp₁] at h₁
      by_cases hp₂ : p.1 = n₂
      · rw [if_pos hp₂] at h₂
        cases h₂
        intro he
        exact hnd.1 (he ▸ List.mem_map_of_mem Prod.snd (lookupName_mem n₁ ps i₁ h₁))
      · rw [if_neg hp₂] at h₂
        exact ih i₁ i₂ hnd.2 h₁ h₂

lemma getOrAdd_found (name : String) (st : DynState) (id : Nat)
    (h : lookupName name st.dynMap = some id) :
    getOrAddDynamicRecord name st = (id, st) := by
  rw [getOrAddDynamicRecord, h]

lemma getOrAdd_fresh (name : String) (st : DynState)
    (h : lookupName name st.dynMap = none) :
    getOrAddDynamicRecord name st =
      (st.fresh, ⟨st.fresh + 1, st.db ++ [st.fresh], st.dynMap ++ [(name, st.fresh)]⟩) := by
  rw [getOrAddDynamicRecord, h]
  rfl

lemma getOrAdd_lookup_after (name : String) (st : DynState) :
    lookupName name (getOrAddDynamicRecord name st).2.dynMap =
      some (getOrAddDynamicRecord name st).1 := by
  cases hl : lookupName name st.dynMap with
  | some id => rw [getOrAdd_found name st id hl, hl]
  | none =>
    rw [getOrAdd_fresh name st hl]
    exact lookupName_append_self name st.fresh st.dynMap hl

lemma getOrAdd_wf (name : String) (st : DynState) (hwf : DynWF st) :
    DynWF (getOrAddDynamicRecord name st).2 := by
  cases hl : lookupName name st.dynMap with
  | some id => rw [getOrAdd_found name st id hl]; exact hwf
  | none =>
    rw [getOrAdd_fresh name st hl]
    obtain ⟨h₁, h₂, h₃⟩ := hwf
    refine ⟨?_, ?_, ?_⟩
    · intro p hp
      rcases List.mem_append.mp hp with h | h
      · exact Nat.lt_succ_of_lt (h₁ p h)
      · simp at h
        simp [h]
    · intro id hid
      rcases List.mem_append.mp hid with h | h
      · exact Nat.lt_succ_of_lt (h₂ id h)
      · simp at h
        simp [h]
    · rw [List.map_append, List.nodup_append]
      refine ⟨h₃, by simp, ?_⟩
      intro x hx
      have : x < st.fresh := by
        obtain ⟨p, hp, hpx⟩ := List.mem_map.mp hx
        exact hpx ▸ h₁ p hp
      simp
      omega

/-- C3: `GetOrAddDynamicRecord` is idempotent per name.  A first call with a
name absent from the owned mapping allocates a genuinely new record (one not
yet in the plain Database nor in the mapping), appends it to the plain
Database (`autoRegister = true`), stores it under the name and returns it;
calling again with the same name returns the identical stored record and
changes nothing; calls with distinct names return distinct records. -/
theorem getOrAddDynamicRecord_idempotent (st : DynState) (hwf : DynWF st)
    (n₁ n₂ : String) (hne : n₁ ≠ n₂) :
    (lookupName n₁ st.dynMap = none →
      getOrAddDynamicRecord n₁ st =
        (st.fresh, ⟨st.fresh + 1, st.db ++ [st.fresh], st.dynMap ++ [(n₁, st.fresh)]⟩) ∧
      st.fresh ∉ st.db ∧ (∀ p ∈ st.dynMap, p.2 ≠ st.fresh)) ∧
    getOrAddDynamicRecord n₁ (getOrAddDynamicRecord n₁ st).2 =
      ((getOrAddDynamicRecord n₁ st).1, (getOrAddDynamicRecord n₁ st).2) ∧
    (getOrAddDynamicRecord n₂ (getOrAddDynamicRecord n₁ st).2).1 ≠
      (getOrAddDynamicRecord n₁ st).1 := by
  obtain ⟨hmap, hdb, hnd⟩ := hwf
  refine ⟨?_, ?_, ?_⟩
  · intro hl
    refine ⟨getOrAdd_fresh n₁ st hl, ?_, ?_⟩
    · intro hmem
      exact absurd (hdb st.fresh hmem) (by omega)
    · intro p hp
      have := hmap p hp
      omega
  · exact getOrAdd_found n₁ _ _ (getOrAdd_lookup_after n₁ st)
  · set st₁ := (getOrAddDynamicRecord n₁ st).2 with hst₁
    have hwf₁ : DynWF st₁ := getOrAdd_wf n₁ st ⟨hmap, hdb, hnd⟩
    have hl₁ : lookupName n₁ st₁.dynMap = some (getOrAddDynamicRecord n₁ st).1 :=
      getOrAdd_lookup_after n₁ st
    cases hl₂ : lookupName n₂ st₁.dynMap with
    | some id₂ =>
      rw [getOrAdd_found n₂ st₁ id₂ hl₂]
      show id₂ ≠ (getOrAddDynamicRecord n₁ st).1
      exact lookupName_distinct n₂ n₁ (Ne.symm hne) st₁.dynMap id₂ _ hwf₁.2.2 hl₂ hl₁
    | none =>
      rw [getOrAdd_fresh n₂ st₁ hl₂]
      have := hwf₁.1 (n₁, (getOrAddDynamicRecord n₁ st).1) (lookupName_mem n₁ _ _ hl₁)
      simp at this ⊢
      omega

/-- witness for C3 from the empty dynamic database: adding "x" creates
record 0 and registers it; re-adding "x" returns record 0 with the state
unchanged; adding "y" afterwards returns a different record. -/
theorem getOrAddDynamicRecord_idempotent_witness :
    DynWF ⟨0, [], []⟩ ∧ ("x" : String) ≠ "y" ∧
    getOrAddDynamicRecord "x" (getOrAddDynamicRecord "x" ⟨0, [], []⟩).2 =
      ((getOrAddDynamicRecord "x" ⟨0, [], []⟩).1, (getOrAddDynamicRecord "x" ⟨0, [], []⟩).2) ∧
    (getOrAddDynamicRecord "y" (getOrAddDynamicRecord "x" ⟨0, [], []⟩).2).1 ≠
      (getOrAddDynamicRecord "x" ⟨0, [], []⟩).1 := by
  have hwf : DynWF ⟨0, [], []⟩ := ⟨by simp, by simp, by simp⟩
  have h := getOrAddDynamicRecord_idempotent ⟨0, [], []⟩ hwf "x" "y" (by decide)
  exact ⟨hwf, by decide, h.2.1, h.2.2⟩

/-- embedding of `TMeasureRecord::GetTotalSec` = `TimeDiffToSec(totalTime)`
(measure_base.h:88-91, 50-54): `double(totalTime) / double(frequency)`.
The reports compare this value only against 0, and division of an integer
by a positive constant is sign-exact in IEEE double arithmetic, so the
rational value is a faithful model for those comparisons. -/
def totalSecQ (freq : ℚ) (r : TMeasureRecord) : ℚ :=
  (r.totalTime : ℚ) / freq

/-- the row-suppression condition shared by `MeasureDatabase::PrintReport`
(measure_base.h:399) and `CsvReport` (csv_reporter.h:21):
`totalSec < 0 || measureRecord->numCall == 0`. -/
def rowNoData (freq : ℚ) (r : TMeasureRecord) : Bool :=
  decide (totalSecQ freq r < 0) || decide (r.numCall = 0)

/-- right-justify in a field of `w` characters, modelling `std::setw(w)`. -/
def padL (w : Nat) (s : String) : String :=
  String.mk (List.replicate (w - s.length) ' ') ++ s

/-- one row of the text report (loop body of `PrintReport`,
measure_base.h:396-408); `fmt` models `MeasureUtils::TimeToStrNs`, whose
floating-point digit rendering is kept abstract. -/
def textRow (freq : ℚ) (fmt : ℚ → String) (r : TMeasureRecord) : String :=
  if rowNoData freq r then
    padL 40 r.name ++ padL 12 (toString r.numCall) ++ "\n"
  else
    padL 40 r.name ++ padL 12 (toString r.numCall) ++
      padL 17 (fmt (totalSecQ freq r)) ++
      padL 17 (fmt (totalSecQ freq r / (r.numCall : ℚ))) ++ "\n"

/-- one row of the CSV report (loop body of `CsvReport`,
csv_reporter.h:18-32); `fmtCsv` models the `std::fixed` double rendering. -/
def csvRow (freq : ℚ) (fmtCsv : ℚ → String) (r : TMeasureRecord) : String :=
  if rowNoData freq r then
    r.name ++ "," ++ toString r.numCall ++ "," ++ ",\n"
  else
    r.name ++ "," ++ toString r.numCall ++ "," ++
      fmtCsv (totalSecQ freq r * 1000000000) ++ "," ++
      fmtCsv (totalSecQ freq r * 1000000000 / (r.numCall : ℚ)) ++ "\n"

/-- the numeric time fields a report row carries: `none` on the no-data
branch; on the other branch the total and the per-call average, whose
division by `numCall` is only ever evaluated there. -/
def rowFields (freq : ℚ) (r : TMeasureRecord) : Option (ℚ × ℚ) :=
  if rowNoData freq r then none
  else some (totalSecQ freq r, totalSecQ freq r / (r.numCall : ℚ))

/-- embedding of `MeasureDatabase::PrintReport` (measure_base.h:373-413):
nothing at all is printed when the record list is empty; otherwise the
centred title banner, the column headers, a rule of 86 dashes, the rows in
registration order, and a closing rule.  (The source assumes the backend
title is shorter than the 86-column width.) -/
def printReport (freq : ℚ) (fmt : ℚ → String) (title : String)
    (records : List TMeasureRecord) : String :=
  if records.isEmpty then ""
  else
    String.mk (List.replicate ((86 - title.length) / 2 - 1) '-') ++ " " ++ title ++ " " ++
      String.mk (List.replicate ((86 - title.length) / 2 - 1) '-') ++
      (if title.length % 2 = 1 then "-" else "") ++ "\n" ++
      padL 40 "Name" ++ padL 12 "Calls" ++ padL 17 "Total (ns)" ++
      padL 17 "Average (ns)" ++ "\n" ++
      String.mk (List.replicate 86 '-') ++ "\n" ++
      String.join (records.map (textRow freq fmt)) ++
      String.mk (List.replicate 86 '-') ++ "\n"

/-- embedding of `CsvReport` (csv_reporter.h:10-35): nothing at all is
written when the record list is empty; otherwise the header row followed by
one row per record. -/
def csvReport (freq : ℚ) (fmtCsv : ℚ → String) (records : List TMeasureRecord) : String :=
  if records.isEmpty then ""
  else
    String.append (String.append ("name,num_calls,total_ns,average_ns") ("\n"))
      (String.join (records.map (csvRow freq fmtCsv)))

/-- C10: with no registered records, `PrintReport` writes nothing at all —
no banner, no headers, no rules — and `CsvReport` writes nothing either,
not even the CSV header row. -/
theorem empty_database_reports_nothing (freq : ℚ) (fmt fmtCsv : ℚ → String)
    (title : String) :
    printReport freq fmt title [] = "" ∧ csvReport freq fmtCsv [] = "" :=
  ⟨rfl, rfl⟩

/-- C9: the per-call average division is evaluated only on the branch where
`numCall` is nonzero: a record with `numCall = 0` takes the no-data branch
(no numeric fields at all), and whenever numeric fields are produced the
divisor `numCall` is nonzero, so report generation never divides by zero. -/
theorem report_average_divisor_nonzero (freq : ℚ) (r : TMeasureRecord) :
    (r.numCall = 0 → rowFields freq r = none) ∧
    (∀ t a, rowFields freq r = some (t, a) →
      r.numCall ≠ 0 ∧ t = totalSecQ freq r ∧ a = totalSecQ freq r / (r.numCall : ℚ)) := by
  constructor
  · intro h
    rw [rowFields, if_pos]
    rw [rowNoData, h]
    simp
  · intro t a h
    rw [rowFields] at h
    by_cases hc : rowNoData freq r = true
    · rw [if_pos hc] at h
      cases h
    · rw [if_neg hc] at h
      rw [rowNoData] at hc
      simp only [Bool.or_eq_true, decide_eq_true_eq, not_or] at hc
      cases h
      exact ⟨hc.2, rfl, rfl⟩

/-- witness for C9: a record with zero calls yields no numeric fields, and a
record whose fields are produced has a nonzero divisor. -/
theorem report_average_divisor_nonzero_witness :
    rowFields 1 ⟨"z", 5, 0⟩ = none ∧
    (⟨"z", 5, 2⟩ : TMeasureRecord).numCall ≠ 0 := by
  constructor
  · exact (report_average_divisor_nonzero 1 ⟨"z", 5, 0⟩).1 rfl
  · refine ((report_average_divisor_nonzero 1 ⟨"z", 5, 2⟩).2
      (totalSecQ 1 ⟨"z", 5, 2⟩) (totalSecQ 1 ⟨"z", 5, 2⟩ / ((2 : Nat) : ℚ)) ?_).1
    rw [rowFields, if_neg]
    rw [rowNoData, totalSecQ]
    norm_num

/-- counterexample to C4 as stated: at the record named "x" with
`totalTime = 0` and `numCall = 1` (frequency 3200000000, the default
backend), the total seconds value is non-positive, yet the code does not
suppress the numeric fields: the suppression test `totalSec < 0` is strict,
so the CSV row carries all four fields rather than the trailing comma
pair. -/
theorem row_suppression_counterexample :
    totalSecQ 3200000000 ⟨"x", 0, 1⟩ ≤ 0 ∧
    (⟨"x", 0, 1⟩ : TMeasureRecord).numCall ≠ 0 ∧
    rowNoData 3200000000 ⟨"x", 0, 1⟩ = false ∧
    csvRow 3200000000 (fun _ => "0") ⟨"x", 0, 1⟩ = "x,1,0,0\n" ∧
    csvRow 3200000000 (fun _ => "0") ⟨"x", 0, 1⟩ ≠ "x,1,,\n" := by
  have hsec : totalSecQ 3200000000 ⟨"x", 0, 1⟩ = 0 := by
    rw [totalSecQ]
    norm_num
  have hnod : rowNoData 3200000000 ⟨"x", 0, 1⟩ = false := by
    rw [rowNoData, hsec]
    simp
  have hrow : csvRow 3200000000 (fun _ => "0") ⟨"x", 0, 1⟩ = "x,1,0,0\n" := by
    rw [csvRow, if_neg (by rw [hnod]; exact Bool.false_ne_true)]
    rfl
  refine ⟨le_of_eq hsec, by decide, hnod, hrow, ?_⟩
  rw [hrow]
  decide

/-- C4 as amended: a report row suppresses the numeric time fields exactly
when the record's call count is zero or its total seconds is strictly
negative; on that branch the text report prints only Name and Calls and the
CSV row leaves `total_ns` and `average_ns` empty (a trailing comma pair
after the call count); otherwise all four fields are printed. -/
theorem row_suppression_iff (freq : ℚ) (fmt fmtCsv : ℚ → String) (r : TMeasureRecord) :
    (rowNoData freq r = true ↔ (r.numCall = 0 ∨ totalSecQ freq r < 0)) ∧
    (rowNoData freq r = true →
      textRow freq fmt r = padL 40 r.name ++ padL 12 (toString r.numCall) ++ "\n" ∧
      csvRow freq fmtCsv r = r.name ++ "," ++ toString r.numCall ++ "," ++ ",\n") ∧
    (rowNoData freq r = false →
      textRow freq fmt r = padL 40 r.name ++ padL 12 (toString r.numCall) ++
        padL 17 (fmt (totalSecQ freq r)) ++
        padL 17 (fmt (totalSecQ freq r / (r.numCall : ℚ))) ++ "\n" ∧
      csvRow freq fmtCsv r = r.name ++ "," ++ toString r.numCall ++ "," ++
        fmtCsv (totalSecQ freq r * 1000000000) ++ "," ++
        fmtCsv (totalSecQ freq r * 1000000000 / (r.numCall : ℚ)) ++ "\n") := by
  refine ⟨?_, ?_, ?_⟩
  · rw [rowNoData]
    simp only [Bool.or_eq_true, decide_eq_true_eq]
    exact or_comm
  · intro h
    rw [textRow, if_pos h, csvRow, if_pos h]
    exact ⟨rfl, rfl⟩
  · intro h
    rw [textRow, if_neg (by rw [h]; exact Bool.false_ne_true),
      csvRow, if_neg (by rw [h]; exact Bool.false_ne_true)]
    exact ⟨rfl, rfl⟩

/-- witness for C4's amended theorem: a zero-call record is suppressed with
the CSV trailing comma pair; a one-call record with positive total prints
all four fields. -/
theorem row_suppression_iff_witness :
    rowNoData 1 ⟨"y", 3, 0⟩ = true ∧
    csvRow 1 (fun _ => "9") ⟨"y", 3, 0⟩ = "y,0,,\n" ∧
    rowNoData 1 ⟨"x", 3, 1⟩ = false ∧
    csvRow 1 (fun _ => "9") ⟨"x", 3, 1⟩ =
      "x" ++ "," ++ toString (1 : Nat) ++ "," ++ "9" ++ "," ++ "9" ++ "\n" := by
  have hy : rowNoData 1 ⟨"y", 3, 0⟩ = true := by
    rw [rowNoData]
    simp
  have hxsec : totalSecQ 1 ⟨"x", 3, 1⟩ = 3 := by
    rw [totalSecQ]
    norm_num
  have hx : rowNoData 1 ⟨"x", 3, 1⟩ = false := by
    rw [rowNoData, hxsec]
    simp
  refine ⟨hy, ?_, hx, ?_⟩
  · have h := (row_suppression_iff 1 (fun _ => "9") (fun _ => "9") ⟨"y", 3, 0⟩).2.1 hy
    rw [h.2]
    rfl
  · have h := ((row_suppression_iff 1 (fun _ => "9") (fun _ => "9") ⟨"x", 3, 1⟩).2.2 hx).2
    rw [h]

/-- an observable event of a Database operation: mutex interactions and
accesses to the record sequence. -/
inductive DbEvent where
  | lockAcquire : DbEvent
  | lockRelease : DbEvent
  | append : DbEvent
  | readRec (i : Nat) : DbEvent
  | writeRec (i : Nat) : DbEvent
  deriving Repr, DecidableEq

/-- event trace of `MeasureDatabase::AddRecord` (measure_base.h:354-360):
`lock_guard` around `records.push_back(record)`. -/
def addRecordTrace : List DbEvent :=
  [DbEvent.lockAcquire, DbEvent.append, DbEvent.lockRelease]

/-- event trace of `MeasureDatabase::PrintReport` (measure_base.h:373-413):
the loop reads every record in registration order; the body contains no
`lock_guard`, so no lock event appears. -/
def printReportTrace (records : List TMeasureRecord) : List DbEvent :=
  (List.range records.length).map DbEvent.readRec

/-- event trace of `MeasureDatabase::ResetAll` (measure_base.h:415-425): the
loop zeroes every record in registration order; the body contains no
`lock_guard`, so no lock event appears. -/
def resetAllTrace (records : List TMeasureRecord) : List DbEvent :=
  (List.range records.length).map DbEvent.writeRec

/-- event trace of `DynamicMeasureDatabase::GetOrAddDynamicRecord`
(measure_base.h:428-446): the whole body runs under `lock_guard`; one read
of the mapping, and on the miss path one write plus the constructor's
nested `AddRecord` (whose own lock is a second mutex; represented here by
its append access, performed while the dynamic lock is held). -/
def getOrAddDynamicTrace (hit : Bool) : List DbEvent :=
  if hit then [DbEvent.lockAcquire, DbEvent.readRec 0, DbEvent.lockRelease]
  else [DbEvent.lockAcquire, DbEvent.readRec 0, DbEvent.writeRec 0, DbEvent.append,
    DbEvent.lockRelease]

/-- checks that every record access in a trace happens while the mutex is
held (`d` is the current hold count). -/
def accessesLocked (d : Nat) : List DbEvent → Bool
  | [] => true
  | DbEvent.lockAcquire :: es => accessesLocked (d + 1) es
  | DbEvent.lockRelease :: es => accessesLocked (d - 1) es
  | DbEvent.append :: es => decide (0 < d) && accessesLocked d es
  | DbEvent.readRec _ :: es => decide (0 < d) && accessesLocked d es
  | DbEvent.writeRec _ :: es => decide (0 < d) && accessesLocked d es

/-- counterexample to C5 as stated: on a one-record database, `ResetAll`
zeroes the record and `PrintReport` iterates it with no lock acquisition at
all — their traces contain no lock event and fail the locked-access check —
while `AddRecord` does append under the lock. -/
theorem database_lock_counterexample :
    accessesLocked 0 addRecordTrace = true ∧
    accessesLocked 0 (resetAllTrace [⟨"a", 1, 1⟩]) = false ∧
    accessesLocked 0 (printReportTrace [⟨"a", 1, 1⟩]) = false ∧
    DbEvent.lockAcquire ∉ resetAllTrace [⟨"a", 1, 1⟩] ∧
    DbEvent.lockAcquire ∉ printReportTrace [⟨"a", 1, 1⟩] := by
  refine ⟨rfl, rfl, rfl, by decide, by decide⟩

/-- C5 as amended: `AddRecord` holds the Database lock for its append and
`GetOrAddDynamicRecord` holds the Dynamic Database lock for its whole
critical section, but `ResetAll` zeroes every record and `PrintReport`
iterates every record without acquiring the Database lock: on any nonempty
database their traces contain no lock event and their record accesses
happen with the mutex free. -/
theorem database_lock_usage (records : List TMeasureRecord) (h : records ≠ [])
    (hit : Bool) :
    accessesLocked 0 addRecordTrace = true ∧
    accessesLocked 0 (getOrAddDynamicTrace hit) = true ∧
    accessesLocked 0 (resetAllTrace records) = false ∧
    accessesLocked 0 (printReportTrace records) = false ∧
    (∀ e ∈ resetAllTrace records, e ≠ DbEvent.lockAcquire) ∧
    (∀ e ∈ printReportTrace records, e ≠ DbEvent.lockAcquire) := by
  obtain ⟨r, rs, rfl⟩ := List.exists_cons_of_ne_nil h
  refine ⟨rfl, ?_, ?_, ?_, ?_, ?_⟩
  · cases hit <;> rfl
  · rw [resetAllTrace]
    simp only [List.length_cons, List.range_succ_eq_map, List.map_cons]
    rfl
  · rw [printReportTrace]
    simp only [List.length_cons, List.range_succ_eq_map, List.map_cons]
    rfl
  · intro e he
    rw [resetAllTrace] at he
    obtain ⟨i, _, hie⟩ := List.mem_map.mp he
    rw [← hie]
    intro hcon
    cases hcon
  · intro e he
    rw [printReportTrace] at he
    obtain ⟨i, _, hie⟩ := List.mem_map.mp he
    rw [← hie]
    intro hcon
    cases hcon

/-- witness for C5's amended theorem on a one-record database. -/
theorem database_lock_usage_witness :
    ([⟨"a", 1, 1⟩] : List TMeasureRecord) ≠ [] ∧
    accessesLocked 0 (resetAllTrace [⟨"a", 1, 1⟩]) = false ∧
    accessesLocked 0 (printReportTrace [⟨"a", 1, 1⟩]) = false := by
  have h := database_lock_usage [⟨"a", 1, 1⟩] (by decide) true
  exact ⟨by decide, h.2.2.1, h.2.2.2.1⟩

end MeasureLib
